import Mathlib

/-
Verification of the js-notes repository against its specification.

The repository is a set of prose documents with short code snippets.
The specification defines a snippet-catalog validator and runner
(Parser, Executor, Comparator/Reporter); that component is not present
in the source tree, so it is modelled from the wording of the
specification.  The concrete snippet functions that the claims name
(getPackageCost, processTransactions, the reduce-based deduplication)
are translated directly from the source files.
-/

namespace JsNotes

/-! ## Data model, modelled from the spec (section 3) -/

/-- Modelled from the spec: the error taxonomy of section 7.  ParseError,
Timeout and Runtime are record-level error descriptors attached to data;
ReportInconsistency is the single fatal condition. -/
inductive ErrKind where
  | parseError : ErrKind
  | timeout : ErrKind
  | runtime (msg : String) : ErrKind
deriving DecidableEq

/-- Modelled from the spec: the fatal condition that aborts a run
(section 7, ReportInconsistency). -/
inductive FatalError where
  | reportInconsistency : FatalError
deriving DecidableEq

/-- Modelled from the spec: the classification verdict assigned to one
record (section 4.3): exactly one of Pass, Fail, Errored, Skipped. -/
inductive Classification where
  | pass : Classification
  | fail : Classification
  | errored : Classification
  | skipped : Classification
deriving DecidableEq

/-! ## The snippet mini-language executed by the Isolated Executor

Modelled from the spec (section 4.2 and section 9): code consists of
statements that bind values, emit observable output, fault, or schedule
deferred work; deferred work is a task with a due time that the
Executor must drain or time out on. -/

/-- Modelled from the spec: a synchronous statement of a snippet. -/
inductive SimpleStmt where
  | assign (name : String) (v : Int) : SimpleStmt
  | add (name : String) (v : Int) : SimpleStmt
  | print (name : String) : SimpleStmt
  | printLit (s : String) : SimpleStmt
  | throwErr (msg : String) : SimpleStmt
deriving DecidableEq

/-- Modelled from the spec: a top-level statement; deferred work
(timers, deferred callbacks) is scheduled with a delay and a body. -/
inductive Stmt where
  | simple (s : SimpleStmt) : Stmt
  | deferWork (delay : Nat) (body : List SimpleStmt) : Stmt
deriving DecidableEq

/-- Whether a synchronous statement can produce observable output. -/
def SimpleStmt.producesOutput : SimpleStmt → Bool
  | .print _ => true
  | .printLit _ => true
  | _ => false

/-- Modelled from the spec: one parsed code line of a fenced block — the
statement (if the line holds one) together with the trailing
expected-output comment (if present). -/
structure CodeLine where
  stmt : Option Stmt
  expected : Option String
deriving DecidableEq

/-- Whether a code line holds an extractable output-producing statement. -/
def CodeLine.extractable (c : CodeLine) : Bool :=
  match c.stmt with
  | some (.simple s) => s.producesOutput
  | _ => false

/-- Modelled from the spec: one extracted snippet (section 3,
ExampleRecord): identifier, source code lines, declared expected
outputs; a synthetic record carries a parse error instead of code. -/
structure ExampleRecord where
  id : Nat
  sourceLines : List CodeLine
  expectedOutputs : List String
  parseErr : Bool
deriving DecidableEq

/-- Modelled from the spec: the result of executing one record
(section 3, ExecutionResult). -/
structure ExecutionResult where
  exampleId : Nat
  actualOutputs : List String
  error : Option ErrKind
  durationMs : Nat
deriving DecidableEq

/-! ## Comparator (spec section 4.3) -/

/-- Modelled from the spec: trailing-whitespace normalization of one
output line. -/
def normLine (s : String) : String :=
  String.mk ((s.data.reverse.dropWhile Char.isWhitespace).reverse)

/-- Modelled from the spec: line-for-line comparison under exact string
equality, after trailing-whitespace normalization when the
normalizeWhitespace option is set. -/
def outputsMatch (normalizeWhitespace : Bool) (exp act : List String) : Bool :=
  if normalizeWhitespace then exp.map normLine = act.map normLine
  else exp = act

/-- Modelled from the spec: the classification contract of section 4.3
together with the rule of section 8 that a record with no
expectedOutputs is always Skipped; then Errored when an error is
present, Pass on a line-for-line match, Fail otherwise. -/
def classify (normalizeWhitespace : Bool) (r : ExampleRecord)
    (res : ExecutionResult) : Classification :=
  if r.expectedOutputs.isEmpty then .skipped
  else if res.error.isSome then .errored
  else if outputsMatch normalizeWhitespace r.expectedOutputs res.actualOutputs then .pass
  else .fail

/-! ## Concrete snippet functions translated from the source files -/

/-- From src/example.js: cost of a travel package by distance tier. -/
def getPackageCost (distance : ℚ) : ℚ :=
  if distance < 1000 then 500
  else if distance < 2000 then 1000
  else if distance < 3000 then 1500
  else 2000

/-- From src/unnamed/part_000: a bank transaction (type and amount). -/
structure Transaction where
  type : String
  amount : Int
deriving DecidableEq

/-- From src/unnamed/part_000: the demo transaction list. -/
def transactions : List Transaction :=
  [⟨"deposit", 100⟩, ⟨"withdraw", 50⟩, ⟨"deposit", 200⟩, ⟨"withdraw", 30⟩]

/-- From src/unnamed/part_000: the processTransactions generator.  Each
yielded message is paired with the running balance after that step, so
the internal balance at every yield is observable in the embedding. -/
def processTransactions : List Transaction → Int → List (String × Int)
  | [], _ => []
  | t :: ts, balance =>
    if t.type = "deposit" then
      let b := balance + t.amount
      ("Deposited $" ++ toString t.amount ++ ", new balance: $" ++ toString b, b)
        :: processTransactions ts b
    else if t.type = "withdraw" then
      if balance ≥ t.amount then
        let b := balance - t.amount
        ("Withdrew $" ++ toString t.amount ++ ", new balance: $" ++ toString b, b)
          :: processTransactions ts b
      else
        ("Insufficient funds for withdrawal of $" ++ toString t.amount
            ++ ", balance remains: $" ++ toString balance, balance)
          :: processTransactions ts balance
    else processTransactions ts balance

/-- From src/unnamed/part_000: the input array of the deduplication
snippet. -/
def numbers : List Nat := [1, 3, 4, 5, 6, 4, 6, 9, 8]

/-- From src/unnamed/part_000: one step of the reduce callback — push
the element onto the accumulator unless it is already included. -/
def dedupStep (accumulate : List Nat) (n : Nat) : List Nat :=
  if accumulate.contains n then accumulate else accumulate ++ [n]

/-- From src/unnamed/part_000: the reduce-based deduplication applied to
an arbitrary input list. -/
def dedupReduce (l : List Nat) : List Nat :=
  l.foldl dedupStep []

/-- From src/unnamed/part_000: the nonduplicateNumber constant. -/
def nonduplicateNumber : List Nat := dedupReduce numbers

/-- Follows the words of the claim: keep each element at its first
occurrence, dropping the later duplicates. -/
def firstOccurrences : List Nat → List Nat
  | [] => []
  | x :: xs => x :: firstOccurrences (xs.filter (fun a => a ≠ x))
termination_by l => l.length
decreasing_by
  simp only [List.length_cons]
  exact Nat.lt_succ_of_le (List.length_filter_le _ _)

/-! ## Isolated Executor (spec section 4.2)

Modelled from the spec: each execution gets a fresh, isolated context;
observable output emissions are captured in order; deferred work is
drained up to the wall-clock timeout; uncaught runtime faults are
captured as data with prior output preserved. -/

/-- Modelled from the spec: the isolated evaluation context of one
execution — variable bindings plus the captured output stream. -/
structure ExecState where
  bindings : List (String × Int)
  outputs : List String
deriving DecidableEq

/-- Look up a binding in the context (0 when unset). -/
def lookupBinding (bs : List (String × Int)) (name : String) : Int :=
  match bs.find? (fun p => p.1 = name) with
  | some p => p.2
  | none => 0

/-- Run one synchronous statement; returns the new context and an
optional fault message. -/
def runSimple (st : ExecState) (s : SimpleStmt) : ExecState × Option String :=
  match s with
  | .assign n v => ({ st with bindings := (n, v) :: st.bindings }, none)
  | .add n v =>
      ({ st with bindings := (n, lookupBinding st.bindings n + v) :: st.bindings }, none)
  | .print n =>
      ({ st with outputs := st.outputs ++ [toString (lookupBinding st.bindings n)] }, none)
  | .printLit s => ({ st with outputs := st.outputs ++ [s] }, none)
  | .throwErr m => (st, some m)

/-- Run a list of synchronous statements, stopping at the first fault. -/
def runSimples : List SimpleStmt → ExecState → ExecState × Option String
  | [], st => (st, none)
  | s :: ss, st =>
    match runSimple st s with
    | (st2, some m) => (st2, some m)
    | (st2, none) => runSimples ss st2

/-- Run the synchronous phase of a record: execute statements in order,
collecting scheduled deferred tasks (due time, body); a fault stops the
phase with prior output preserved. -/
def runMain : List Stmt → ExecState → List (Nat × List SimpleStmt) →
    ExecState × List (Nat × List SimpleStmt) × Option String
  | [], st, tasks => (st, tasks, none)
  | .simple s :: rest, st, tasks =>
    match runSimple st s with
    | (st2, some m) => (st2, tasks, some m)
    | (st2, none) => runMain rest st2 tasks
  | .deferWork d body :: rest, st, tasks => runMain rest st (tasks ++ [(d, body)])

/-- Modelled from the spec: drain scheduled deferred work, settling each
task whose due time is within the timeout; on the first task past the
timeout the execution is abandoned with a Timeout descriptor and the
partial output captured so far is kept.  Returns the final context, the
virtual clock, and an optional error. -/
def drainTasks : List (Nat × List SimpleStmt) → ExecState → Nat → Nat →
    ExecState × Nat × Option ErrKind
  | [], st, _, clock => (st, clock, none)
  | (due, body) :: rest, st, timeoutMs, clock =>
    if due ≤ timeoutMs then
      match runSimples body st with
      | (st2, some m) => (st2, max clock due, some (.runtime m))
      | (st2, none) => drainTasks rest st2 timeoutMs (max clock due)
    else (st, timeoutMs, some .timeout)

/-- The code of a record: the statements of its source lines. -/
def ExampleRecord.code (r : ExampleRecord) : List Stmt :=
  r.sourceLines.filterMap CodeLine.stmt

/-- Modelled from the spec: execute one record in a fresh isolated
context, enforce the wall-clock timeout, and return an
ExecutionResult; faults and timeouts are returned as data. -/
def execute (timeoutMs : Nat) (r : ExampleRecord) : ExecutionResult :=
  if r.parseErr then
    { exampleId := r.id, actualOutputs := [], error := some .parseError, durationMs := 0 }
  else
    match runMain r.code ⟨[], []⟩ [] with
    | (st, _, some m) =>
      { exampleId := r.id, actualOutputs := st.outputs,
        error := some (.runtime m), durationMs := 0 }
    | (st, tasks, none) =>
      match drainTasks tasks st timeoutMs 0 with
      | (st2, clock, err) =>
        { exampleId := r.id, actualOutputs := st2.outputs,
          error := err, durationMs := clock }

/-- Modelled from the spec: a run over a sequence of records — one
invocation of the Executor per record, each in its own fresh context. -/
def runSequence (timeoutMs : Nat) (recs : List ExampleRecord) : List ExecutionResult :=
  recs.map (execute timeoutMs)

/-- Whether a task body is free of fault statements. -/
def noThrow (body : List SimpleStmt) : Bool :=
  body.all (fun s => match s with | .throwErr _ => false | _ => true)

/-! ## Corpus Parser (spec section 4.1) -/

/-- Modelled from the spec: one line of raw corpus text, at the
granularity the Parser distinguishes — a fence delimiter, a code line
inside a block, or narrative text. -/
inductive Line where
  | fence : Line
  | code (c : CodeLine) : Line
  | text : Line
deriving DecidableEq

/-- Whether a block body contains an extractable statement. -/
def hasExtractable (buf : List CodeLine) : Bool :=
  buf.any CodeLine.extractable

/-- Build the ExampleRecord for an eligible block: expected outputs are
the trailing comments of the output-producing lines, in order. -/
def mkRecord (n : Nat) (buf : List CodeLine) : ExampleRecord :=
  { id := n, sourceLines := buf,
    expectedOutputs := buf.filterMap (fun c => if c.extractable then c.expected else none),
    parseErr := false }

/-- Modelled from the spec: the synthetic record carrying a ParseError
for an unterminated fenced region. -/
def syntheticRecord (n : Nat) : ExampleRecord :=
  { id := n, sourceLines := [], expectedOutputs := [], parseErr := true }

/-- Modelled from the spec: the single-pass fence scanner.  Outside a
block, a fence opens one; inside, a fence closes it and the block is
emitted as a record exactly when it has an extractable statement; an
unterminated block at end of input yields a synthetic ParseError
record. -/
def scanLines : List Line → Option (List CodeLine) → Nat → List ExampleRecord
  | [], none, _ => []
  | [], some _, n => [syntheticRecord n]
  | .fence :: rest, none, n => scanLines rest (some []) n
  | .fence :: rest, some buf, n =>
    if hasExtractable buf then mkRecord n buf :: scanLines rest none (n + 1)
    else scanLines rest none n
  | .code c :: rest, some buf, n => scanLines rest (some (buf ++ [c])) n
  | .code _ :: rest, none, n => scanLines rest none n
  | .text :: rest, inBlock, n => scanLines rest inBlock n

/-- Modelled from the spec: the Corpus Parser — a pure function from
raw lines to the ordered sequence of ExampleRecords. -/
def parseCorpus (lines : List Line) : List ExampleRecord :=
  scanLines lines none 0

/-- A well-formed corpus segment: narrative text or one complete fenced
block with its content. -/
inductive Segment where
  | narrative : Segment
  | block (content : List CodeLine) : Segment

/-- Render one segment back to raw lines. -/
def renderSegment : Segment → List Line
  | .narrative => [.text]
  | .block ls => .fence :: (ls.map Line.code ++ [.fence])

/-- Render a well-formed corpus: a concatenation of segments. -/
def renderCorpus : List Segment → List Line
  | [] => []
  | s :: ss => renderSegment s ++ renderCorpus ss

/-- Whether a segment is a fenced block. -/
def isBlockSeg : Segment → Bool
  | .narrative => false
  | .block _ => true

/-- Whether a segment is a fenced block with an extractable statement. -/
def eligibleBlock : Segment → Bool
  | .narrative => false
  | .block ls => hasExtractable ls

/-! ## Comparator and Reporter run loop (spec sections 4.3 and 7) -/

/-- Modelled from the spec: process records in order, classifying each
result as data; a duplicate record id is the internal invariant
violation that aborts the run with ReportInconsistency. -/
def runRecords (exec : ExampleRecord → ExecutionResult) (nw : Bool) :
    List ExampleRecord → List Nat → Except FatalError (List (Nat × Classification))
  | [], _ => .ok []
  | r :: rs, seen =>
    if r.id ∈ seen then .error .reportInconsistency
    else
      match runRecords exec nw rs (r.id :: seen) with
      | .error e => .error e
      | .ok rep => .ok ((r.id, classify nw r (exec r)) :: rep)

/-- Modelled from the spec: a whole corpus run, producing the final
report or the single fatal condition. -/
def runCorpus (exec : ExampleRecord → ExecutionResult) (nw : Bool)
    (recs : List ExampleRecord) : Except FatalError (List (Nat × Classification)) :=
  runRecords exec nw recs []

/-! ## Lemmas about the reduce-based deduplication -/

lemma foldl_dedupStep_eq (l : List Nat) :
    ∀ acc : List Nat, l.foldl dedupStep acc =
      acc ++ firstOccurrences (l.filter (fun a => a ∉ acc)) := by
  induction l with
  | nil => intro acc; simp [firstOccurrences]
  | cons x xs ih =>
    intro acc
    by_cases hx' : x ∈ acc
    · rw [List.foldl_cons]
      have hstep : dedupStep acc x = acc := by simp [dedupStep, hx']
      have hfc : (x :: xs).filter (fun a => a ∉ acc) = xs.filter (fun a => a ∉ acc) := by
        simp [List.filter_cons, hx']
      rw [hstep, ih acc, hfc]
    · rw [List.foldl_cons]
      have hstep : dedupStep acc x = acc ++ [x] := by simp [dedupStep, hx']
      have hfc : (x :: xs).filter (fun a => a ∉ acc) =
          x :: xs.filter (fun a => a ∉ acc) := by
        simp [List.filter_cons, hx']
      rw [hstep, ih (acc ++ [x]), hfc]
      have hfilter :
          (xs.filter (fun a => a ∉ acc)).filter (fun a => a ≠ x) =
            xs.filter (fun a => a ∉ acc ++ [x]) := by
        rw [List.filter_filter]
        apply List.filter_congr
        intro a _
        by_cases hax : a = x <;> by_cases haa : a ∈ acc <;>
          simp [hax, haa, List.mem_append]
      rw [firstOccurrences, hfilter, List.append_assoc]
      simp

lemma firstOccurrences_mem_aux :
    ∀ (n : Nat) (l : List Nat), l.length ≤ n →
      ∀ x, x ∈ firstOccurrences l ↔ x ∈ l := by
  intro n
  induction n with
  | zero =>
    intro l hl x
    have : l = [] := List.eq_nil_of_length_eq_zero (Nat.le_zero.mp hl)
    subst this
    simp [firstOccurrences]
  | succ n ih =>
    intro l hl x
    cases l with
    | nil => simp [firstOccurrences]
    | cons y ys =>
      rw [firstOccurrences]
      have hlen : (ys.filter (fun a => a ≠ y)).length ≤ n := by
        have h1 := List.length_filter_le (fun a => decide (a ≠ y)) ys
        have h2 : ys.length ≤ n := by simpa using Nat.le_of_succ_le_succ hl
        omega
      by_cases hxy : x = y
      · subst hxy; simp
      · simp only [List.mem_cons, ih _ hlen x, List.mem_filter]
        simp [hxy]

lemma firstOccurrences_mem (l : List Nat) (x : Nat) :
    x ∈ firstOccurrences l ↔ x ∈ l :=
  firstOccurrences_mem_aux l.length l (le_refl _) x

lemma firstOccurrences_nodup_aux :
    ∀ (n : Nat) (l : List Nat), l.length ≤ n → (firstOccurrences l).Nodup := by
  intro n
  induction n with
  | zero =>
    intro l hl
    have : l = [] := List.eq_nil_of_length_eq_zero (Nat.le_zero.mp hl)
    subst this
    simp [firstOccurrences]
  | succ n ih =>
    intro l hl
    cases l with
    | nil => simp [firstOccurrences]
    | cons y ys =>
      rw [firstOccurrences]
      have hlen : (ys.filter (fun a => a ≠ y)).length ≤ n := by
        have h1 := List.length_filter_le (fun a => decide (a ≠ y)) ys
        have h2 : ys.length ≤ n := by simpa using Nat.le_of_succ_le_succ hl
        omega
      refine List.nodup_cons.mpr ⟨?_, ih _ hlen⟩
      intro hy
      have := (firstOccurrences_mem_aux n _ hlen y).mp hy
      simp [List.mem_filter] at this

lemma dedupReduce_eq_firstOccurrences (l : List Nat) :
    dedupReduce l = firstOccurrences l := by
  rw [dedupReduce, foldl_dedupStep_eq l []]
  simp

/-- C10: the reduce-based deduplication keeps each distinct element of
the input exactly once, in order of first occurrence (it equals the
first-occurrence filter, is duplicate-free, and has exactly the
members of the input); on the demo input it produces
[1, 3, 4, 5, 6, 9, 8]. -/
theorem dedupReduce_first_occurrence_spec :
    (∀ l : List Nat,
      dedupReduce l = firstOccurrences l ∧
      (dedupReduce l).Nodup ∧
      (∀ x, x ∈ dedupReduce l ↔ x ∈ l)) ∧
    nonduplicateNumber = [1, 3, 4, 5, 6, 9, 8] := by
  constructor
  · intro l
    refine ⟨dedupReduce_eq_firstOccurrences l, ?_, ?_⟩
    · rw [dedupReduce_eq_firstOccurrences]
      exact firstOccurrences_nodup_aux l.length l (le_refl _)
    · intro x
      rw [dedupReduce_eq_firstOccurrences]
      exact firstOccurrences_mem l x
  · decide

/-! ## Lemmas about getPackageCost -/

/-- C9: getPackageCost is total on numeric distances, returns exactly
one of the tier values 500, 1000, 1500, 2000, and is monotonically
non-decreasing in the distance. -/
theorem getPackageCost_tiers_mono (d1 d2 : ℚ) (h : d1 ≤ d2) :
    (getPackageCost d1 = 500 ∨ getPackageCost d1 = 1000 ∨
      getPackageCost d1 = 1500 ∨ getPackageCost d1 = 2000) ∧
    getPackageCost d1 ≤ getPackageCost d2 := by
  constructor
  · unfold getPackageCost
    split_ifs <;> simp
  · unfold getPackageCost
    split_ifs <;> linarith

/-- Witness for C9 at the concrete distances 500 and 2500. -/
theorem getPackageCost_tiers_mono_witness :
    ((500 : ℚ) ≤ 2500) ∧
    ((getPackageCost 500 = 500 ∨ getPackageCost 500 = 1000 ∨
      getPackageCost 500 = 1500 ∨ getPackageCost 500 = 2000) ∧
    getPackageCost 500 ≤ getPackageCost 2500) :=
  ⟨by norm_num, getPackageCost_tiers_mono 500 2500 (by norm_num)⟩

/-! ## Lemmas about processTransactions -/

lemma processTransactions_nonneg_aux (ts : List Transaction) :
    ∀ balance : Int, 0 ≤ balance → (∀ t ∈ ts, 0 ≤ t.amount) →
      ∀ p ∈ processTransactions ts balance, 0 ≤ p.2 := by
  induction ts with
  | nil =>
    intro b hb ha p hp
    simp [processTransactions] at hp
  | cons t ts ih =>
    intro b hb ha p hp
    have hat : 0 ≤ t.amount := ha t (by simp)
    have ha' : ∀ u ∈ ts, 0 ≤ u.amount := fun u hu => ha u (by simp [hu])
    rw [processTransactions] at hp
    by_cases hd : t.type = "deposit"
    · rw [if_pos hd] at hp
      rcases List.mem_cons.mp hp with h | h
      · subst h; dsimp only; omega
      · exact ih (b + t.amount) (by omega) ha' p h
    · rw [if_neg hd] at hp
      by_cases hw : t.type = "withdraw"
      · rw [if_pos hw] at hp
        by_cases hbal : b ≥ t.amount
        · rw [if_pos hbal] at hp
          rcases List.mem_cons.mp hp with h | h
          · subst h; dsimp only; omega
          · exact ih (b - t.amount) (by omega) ha' p h
        · rw [if_neg hbal] at hp
          rcases List.mem_cons.mp hp with h | h
          · subst h; exact hb
          · exact ih b hb ha' p h
      · rw [if_neg hw] at hp
        exact ih b hb ha' p hp

/-- C8: with non-negative amounts, the processTransactions generator
keeps the running balance non-negative at every yielded step, and a
withdrawal exceeding the current balance leaves the balance unchanged
and yields the insufficient-funds message instead of applying the
debit. -/
theorem processTransactions_invariant :
    (∀ ts : List Transaction, (∀ t ∈ ts, 0 ≤ t.amount) →
      ∀ p ∈ processTransactions ts 0, 0 ≤ p.2) ∧
    (∀ (t : Transaction) (ts : List Transaction) (balance : Int),
      t.type = "withdraw" → ¬ balance ≥ t.amount →
      processTransactions (t :: ts) balance =
        ("Insufficient funds for withdrawal of $" ++ toString t.amount
            ++ ", balance remains: $" ++ toString balance, balance)
          :: processTransactions ts balance) := by
  constructor
  · intro ts ha
    exact processTransactions_nonneg_aux ts 0 (le_refl 0) ha
  · intro t ts balance hw hbal
    rw [processTransactions]
    have hd : ¬ t.type = "deposit" := by rw [hw]; decide
    rw [if_neg hd, if_pos hw, if_neg hbal]

/-- Witness for C8 on the demo transaction list of the source, extended
with an overdrawing withdrawal. -/
theorem processTransactions_invariant_witness :
    ((∀ t ∈ transactions, (0 : Int) ≤ t.amount) ∧
      ∀ p ∈ processTransactions transactions 0, 0 ≤ p.2) ∧
    ((⟨"withdraw", 500⟩ : Transaction).type = "withdraw" ∧
      ¬ (100 : Int) ≥ (⟨"withdraw", 500⟩ : Transaction).amount ∧
      processTransactions [⟨"withdraw", 500⟩] 100 =
        [("Insufficient funds for withdrawal of $500, balance remains: $100", 100)]) := by
  constructor
  · exact ⟨by decide, processTransactions_invariant.1 transactions (by decide)⟩
  · refine ⟨rfl, by decide, ?_⟩
    rw [processTransactions_invariant.2 ⟨"withdraw", 500⟩ [] 100 rfl (by decide)]
    rfl

/-! ## Classification claims -/

/-- C1 (corrected): under trailing-whitespace normalization, the
Comparator assigns Pass exactly when the record has a nonempty
expectedOutputs sequence, the result carries no error, and
actualOutputs equals expectedOutputs line-for-line after normalizing
trailing whitespace; the classification is always exactly one of Pass,
Fail, Errored, Skipped. -/
theorem classify_pass_characterization (r : ExampleRecord) (res : ExecutionResult) :
    (classify true r res = .pass ↔
      r.expectedOutputs ≠ [] ∧ res.error = none ∧
        r.expectedOutputs.map normLine = res.actualOutputs.map normLine) ∧
    (classify true r res = .pass ∨ classify true r res = .fail ∨
      classify true r res = .errored ∨ classify true r res = .skipped) := by
  constructor
  · unfold classify outputsMatch
    by_cases h1 : r.expectedOutputs.isEmpty
    · have : r.expectedOutputs = [] := by simpa [List.isEmpty_iff] using h1
      simp [h1, this]
    · have hne : r.expectedOutputs ≠ [] := by simpa [List.isEmpty_iff] using h1
      by_cases h2 : res.error.isSome
      · have : res.error ≠ none := by simpa [Option.isSome_iff_ne_none] using h2
        simp [h1, h2, hne, this]
      · have hnone : res.error = none := by
          simpa [Option.isSome_iff_ne_none] using h2
        by_cases h3 : r.expectedOutputs.map normLine = res.actualOutputs.map normLine
        · simp [h1, h2, h3, hne, hnone]
        · simp [h1, h2, h3, hne, hnone]
  · cases h : classify true r res
    · exact Or.inl rfl
    · exact Or.inr (Or.inl rfl)
    · exact Or.inr (Or.inr (Or.inl rfl))
    · exact Or.inr (Or.inr (Or.inr rfl))

/-- Counterexample to C1 as stated: for a record with empty
expectedOutputs and a result with no error and empty actualOutputs, the
outputs are equal line-for-line and no error is present, yet the
classification is Skipped, not Pass. -/
theorem classify_pass_counterexample :
    (⟨0, [], [], false⟩ : ExampleRecord).expectedOutputs =
        (⟨0, [], none, 0⟩ : ExecutionResult).actualOutputs ∧
    (⟨0, [], none, 0⟩ : ExecutionResult).error = none ∧
    classify true ⟨0, [], [], false⟩ ⟨0, [], none, 0⟩ ≠ Classification.pass := by
  refine ⟨rfl, rfl, ?_⟩
  decide

/-- C2: a record with empty expectedOutputs is always classified
Skipped, whatever the actualOutputs and error of the result are. -/
theorem classify_skipped_of_no_expected (nw : Bool) (r : ExampleRecord)
    (res : ExecutionResult) (h : r.expectedOutputs = []) :
    classify nw r res = .skipped := by
  simp [classify, h]

/-- Witness for C2: a record with no expectedOutputs is Skipped even
when the result carries an error descriptor and nonempty output. -/
theorem classify_skipped_of_no_expected_witness :
    (⟨0, [], [], false⟩ : ExampleRecord).expectedOutputs = [] ∧
    classify true ⟨0, [], [], false⟩ ⟨0, ["x"], some (.runtime "boom"), 0⟩ =
      Classification.skipped :=
  ⟨rfl, classify_skipped_of_no_expected true _ _ rfl⟩

/-! ## Executor isolation claim -/

/-- C4: executing record B right after record A yields exactly the
result of executing B alone — each execution gets a fresh context, so
nothing A sets up can influence B. -/
theorem executor_isolation (timeoutMs : Nat) (A B : ExampleRecord) :
    (runSequence timeoutMs [A, B]).get? 1 = (runSequence timeoutMs [B]).get? 0 := by
  rfl

/-! ## Parser determinism claim -/

/-- C7: the Parser is a pure function of the input lines — parsing the
identical text twice yields the identical ordered record sequence. -/
theorem parser_deterministic (lines : List Line) :
    parseCorpus lines = parseCorpus lines := rfl

/-! ## Error propagation policy (C3) -/

lemma runRecords_ok (exec : ExampleRecord → ExecutionResult) (nw : Bool) :
    ∀ (recs : List ExampleRecord) (seen : List Nat),
      (∀ r ∈ recs, r.id ∉ seen) → (recs.map ExampleRecord.id).Nodup →
      runRecords exec nw recs seen =
        .ok (recs.map (fun r => (r.id, classify nw r (exec r)))) := by
  intro recs
  induction recs with
  | nil => intro seen _ _; rfl
  | cons r rs ih =>
    intro seen hseen hnd
    have hr : r.id ∉ seen := hseen r (by simp)
    have hnd2 : (∀ x ∈ rs, ¬ x.id = r.id) ∧ (rs.map ExampleRecord.id).Nodup := by
      simpa using hnd
    have hseen' : ∀ u ∈ rs, u.id ∉ r.id :: seen := by
      intro u hu
      simp only [List.mem_cons]
      push_neg
      exact ⟨hnd2.1 u hu, hseen u (by simp [hu])⟩
    rw [runRecords, if_neg hr, ih (r.id :: seen) hseen' hnd2.2]
    simp

lemma runRecords_err (exec : ExampleRecord → ExecutionResult) (nw : Bool) :
    ∀ (recs : List ExampleRecord) (seen : List Nat),
      seen.Nodup → ¬ (seen ++ recs.map ExampleRecord.id).Nodup →
      runRecords exec nw recs seen = .error .reportInconsistency := by
  intro recs
  induction recs with
  | nil =>
    intro seen hs hnd
    exact absurd (by simpa using hs) hnd
  | cons r rs ih =>
    intro seen hs hnd
    by_cases hr : r.id ∈ seen
    · rw [runRecords, if_pos hr]
    · have hs' : (r.id :: seen).Nodup := List.nodup_cons.mpr ⟨hr, hs⟩
      have hnd' : ¬ ((r.id :: seen) ++ rs.map ExampleRecord.id).Nodup := by
        intro hcon
        apply hnd
        have hcon' : (r.id :: (seen ++ rs.map ExampleRecord.id)).Nodup := by
          simpa using hcon
        have hperm :=
          (@List.perm_middle _ r.id seen (rs.map ExampleRecord.id)).symm
        simpa using hperm.nodup hcon'
      rw [runRecords, if_neg hr, ih (r.id :: seen) hs' hnd']

/-- C3: for every corpus and every executor, record-level errors
(ParseError, Timeout, Runtime carried in the results as data) never
abort the run — when record ids are distinct the run returns a report
classifying every record; the run aborts with ReportInconsistency
exactly when a record id is duplicated. -/
theorem error_propagation_policy :
    (∀ (exec : ExampleRecord → ExecutionResult) (nw : Bool)
        (recs : List ExampleRecord),
      (recs.map ExampleRecord.id).Nodup →
      runCorpus exec nw recs =
        .ok (recs.map (fun r => (r.id, classify nw r (exec r))))) ∧
    (∀ (exec : ExampleRecord → ExecutionResult) (nw : Bool)
        (recs : List ExampleRecord),
      ¬ (recs.map ExampleRecord.id).Nodup →
      runCorpus exec nw recs = .error .reportInconsistency) := by
  constructor
  · intro exec nw recs h
    exact runRecords_ok exec nw recs [] (by simp) h
  · intro exec nw recs h
    exact runRecords_err exec nw recs [] List.nodup_nil (by simpa using h)

/-- An executor whose every result carries a Timeout error descriptor. -/
def timeoutExec : ExampleRecord → ExecutionResult :=
  fun r => { exampleId := r.id, actualOutputs := [], error := some .timeout,
             durationMs := 0 }

/-- Witness for C3: a two-record corpus whose results both carry errors
is still fully processed into a report. -/
theorem error_propagation_policy_witness :
    (([syntheticRecord 0, mkRecord 1 []]).map ExampleRecord.id).Nodup ∧
    runCorpus timeoutExec true [syntheticRecord 0, mkRecord 1 []] =
      .ok (([syntheticRecord 0, mkRecord 1 []]).map
        (fun r => (r.id, classify true r (timeoutExec r)))) :=
  ⟨by decide, error_propagation_policy.1 timeoutExec true _ (by decide)⟩

/-! ## Timeout enforcement (C5) -/

lemma runSimple_outputs (st : ExecState) (s : SimpleStmt) :
    ∃ k, (runSimple st s).1.outputs = st.outputs ++ k := by
  cases s with
  | assign n v => exact ⟨[], by simp [runSimple]⟩
  | add n v => exact ⟨[], by simp [runSimple]⟩
  | print n => exact ⟨[toString (lookupBinding st.bindings n)], rfl⟩
  | printLit s => exact ⟨[s], rfl⟩
  | throwErr m => exact ⟨[], by simp [runSimple]⟩

lemma runSimples_outputs :
    ∀ (body : List SimpleStmt) (st : ExecState),
      ∃ k, (runSimples body st).1.outputs = st.outputs ++ k := by
  intro body
  induction body with
  | nil => intro st; exact ⟨[], by simp [runSimples]⟩
  | cons s ss ih =>
    intro st
    obtain ⟨k1, hk1⟩ := runSimple_outputs st s
    rcases h : runSimple st s with ⟨st2, err⟩
    rw [h] at hk1
    cases err with
    | some m =>
      refine ⟨k1, ?_⟩
      rw [runSimples, h]
      exact hk1
    | none =>
      obtain ⟨k2, hk2⟩ := ih st2
      dsimp only at hk1
      refine ⟨k1 ++ k2, ?_⟩
      rw [runSimples, h]
      rw [hk2, hk1, List.append_assoc]

lemma runSimples_noThrow :
    ∀ (body : List SimpleStmt) (st : ExecState),
      noThrow body = true → (runSimples body st).2 = none := by
  intro body
  induction body with
  | nil => intro st _; rfl
  | cons s ss ih =>
    intro st hnt
    cases s with
    | throwErr m => simp [noThrow] at hnt
    | assign n v =>
      have hss : noThrow ss = true := by simpa [noThrow] using hnt
      rw [runSimples]
      simp only [runSimple]
      exact ih _ hss
    | add n v =>
      have hss : noThrow ss = true := by simpa [noThrow] using hnt
      rw [runSimples]
      simp only [runSimple]
      exact ih _ hss
    | print n =>
      have hss : noThrow ss = true := by simpa [noThrow] using hnt
      rw [runSimples]
      simp only [runSimple]
      exact ih _ hss
    | printLit str =>
      have hss : noThrow ss = true := by simpa [noThrow] using hnt
      rw [runSimples]
      simp only [runSimple]
      exact ih _ hss

lemma drainTasks_timeout :
    ∀ (tasks : List (Nat × List SimpleStmt)) (st : ExecState) (t clock : Nat),
      (∀ p ∈ tasks, noThrow p.2 = true) →
      (∃ p ∈ tasks, t < p.1) →
      (drainTasks tasks st t clock).2.2 = some .timeout ∧
      (drainTasks tasks st t clock).2.1 = t ∧
      ∃ k, (drainTasks tasks st t clock).1.outputs = st.outputs ++ k := by
  intro tasks
  induction tasks with
  | nil =>
    intro st t clock _ h
    rcases h with ⟨p, hp, _⟩
    simp at hp
  | cons q qs ih =>
    intro st t clock hnt hex
    rcases q with ⟨due, body⟩
    by_cases hdue : due ≤ t
    · have hb : noThrow body = true := hnt (due, body) (by simp)
      have herr : (runSimples body st).2 = none := runSimples_noThrow body st hb
      obtain ⟨k1, hk1⟩ := runSimples_outputs body st
      rcases hres : runSimples body st with ⟨st2, err⟩
      rw [hres] at herr hk1
      subst herr
      have hex' : ∃ p ∈ qs, t < p.1 := by
        rcases hex with ⟨p, hp, hpt⟩
        rcases List.mem_cons.mp hp with h | h
        · rw [h] at hpt; omega
        · exact ⟨p, h, hpt⟩
      have hnt' : ∀ p ∈ qs, noThrow p.2 = true := fun p hp => hnt p (by simp [hp])
      obtain ⟨herr2, hclk, k2, hout2⟩ := ih st2 t (max clock due) hnt' hex'
      rw [drainTasks, if_pos hdue, hres]
      exact ⟨herr2, hclk, ⟨k1 ++ k2, by rw [hout2, hk1, List.append_assoc]⟩⟩
    · rw [drainTasks, if_neg hdue]
      exact ⟨rfl, rfl, ⟨[], by simp⟩⟩

/-- C5: when the synchronous phase of a record completes without fault
and some scheduled deferred task is due past the timeout, the Executor
finalizes with a Timeout error descriptor, a duration within the
timeout budget, and the partial outputs of the synchronous phase
preserved (only output produced within the budget is appended). -/
theorem executor_timeout (timeoutMs : Nat) (r : ExampleRecord) (st : ExecState)
    (tasks : List (Nat × List SimpleStmt))
    (hpe : r.parseErr = false)
    (hmain : runMain r.code ⟨[], []⟩ [] = (st, tasks, none))
    (hnt : ∀ p ∈ tasks, noThrow p.2 = true)
    (hover : ∃ p ∈ tasks, timeoutMs < p.1) :
    (execute timeoutMs r).error = some .timeout ∧
    (execute timeoutMs r).durationMs ≤ timeoutMs ∧
    ∃ k, (execute timeoutMs r).actualOutputs = st.outputs ++ k := by
  obtain ⟨h1, h2, k, h3⟩ := drainTasks_timeout tasks st timeoutMs 0 hnt hover
  rcases hd : drainTasks tasks st timeoutMs 0 with ⟨st2, clock, err⟩
  rw [hd] at h1 h2 h3
  dsimp only at h1 h2 h3
  have hex : execute timeoutMs r =
      { exampleId := r.id, actualOutputs := st2.outputs,
        error := err, durationMs := clock } := by
    rw [execute, if_neg (by simp [hpe]), hmain]
    dsimp only
    rw [hd]
  rw [hex]
  exact ⟨h1, by simp [h2], ⟨k, h3⟩⟩

/-- A record whose code prints one line and schedules deferred output
due at 50, used as the concrete timeout witness. -/
def lateRecord : ExampleRecord :=
  { id := 7,
    sourceLines :=
      [⟨some (.simple (.printLit "a")), none⟩,
       ⟨some (.deferWork 50 [.printLit "late"]), none⟩],
    expectedOutputs := ["a"],
    parseErr := false }

/-- Witness for C5: running lateRecord with a budget of 10 yields a
Timeout error, a duration within the budget, and keeps the output
printed before the deadline. -/
theorem executor_timeout_witness :
    (lateRecord.parseErr = false ∧
      runMain lateRecord.code ⟨[], []⟩ [] =
        (⟨[], ["a"]⟩, [(50, [.printLit "late"])], none) ∧
      (∀ p ∈ [((50 : Nat), [SimpleStmt.printLit "late"])], noThrow p.2 = true) ∧
      (∃ p ∈ [((50 : Nat), [SimpleStmt.printLit "late"])], 10 < p.1)) ∧
    ((execute 10 lateRecord).error = some .timeout ∧
      (execute 10 lateRecord).durationMs ≤ 10 ∧
      ∃ k, (execute 10 lateRecord).actualOutputs = ["a"] ++ k) :=
  ⟨⟨rfl, rfl, by decide, by decide⟩,
    executor_timeout 10 lateRecord ⟨[], ["a"]⟩ [(50, [.printLit "late"])]
      rfl rfl (by decide) (by decide)⟩

/-! ## Parser completeness (C6) -/

lemma scanLines_inside (rest : List Line) :
    ∀ (ls buf : List CodeLine) (n : Nat),
      scanLines (ls.map Line.code ++ (.fence :: rest)) (some buf) n =
        scanLines (.fence :: rest) (some (buf ++ ls)) n := by
  intro ls
  induction ls with
  | nil => intro buf n; simp
  | cons c cs ih =>
    intro buf n
    conv_lhs => rw [List.map_cons, List.cons_append, scanLines]
    rw [ih (buf ++ [c]) n, List.append_assoc]
    rfl

lemma scanLines_render_length :
    ∀ (segs : List Segment) (n : Nat),
      (scanLines (renderCorpus segs) none n).length = segs.countP eligibleBlock := by
  intro segs
  induction segs with
  | nil => intro n; simp [renderCorpus, scanLines]
  | cons s ss ih =>
    intro n
    cases s with
    | narrative =>
      rw [renderCorpus, renderSegment, List.cons_append, List.nil_append,
        scanLines, ih n, List.countP_cons]
      simp [eligibleBlock]
    | block ls =>
      rw [renderCorpus, renderSegment, List.cons_append, scanLines,
        List.append_assoc, List.singleton_append, scanLines_inside,
        List.nil_append, scanLines]
      by_cases h : hasExtractable ls
      · rw [if_pos h]
        rw [List.countP_cons]
        simp [eligibleBlock, h, ih]
      · rw [if_neg h]
        rw [List.countP_cons]
        simp [eligibleBlock, h, ih]

/-- C6: parsing a well-formed corpus emits exactly one ExampleRecord
per fenced block with an extractable statement — N records when all N
blocks have one — and a block with no extractable statements emits zero
records. -/
theorem parser_completeness :
    (∀ segs : List Segment,
      (∀ ls, Segment.block ls ∈ segs → hasExtractable ls = true) →
      (parseCorpus (renderCorpus segs)).length = segs.countP isBlockSeg) ∧
    (∀ ls : List CodeLine, hasExtractable ls = false →
      parseCorpus (renderCorpus [Segment.block ls]) = []) := by
  constructor
  · intro segs h
    rw [parseCorpus, scanLines_render_length]
    apply List.countP_congr
    intro s hs
    cases s with
    | narrative => rfl
    | block ls => simp [eligibleBlock, isBlockSeg, h ls hs]
  · intro ls h
    rw [parseCorpus, renderCorpus, renderCorpus, List.append_nil, renderSegment,
      scanLines, scanLines_inside, List.nil_append, scanLines,
      if_neg (by simp [h])]
    rfl

/-- The demo corpus: one narrative segment and one block that prints a
line with a declared expected output. -/
def demoSegs : List Segment :=
  [.narrative, .block [⟨some (.simple (.printLit "2")), some "2"⟩]]

/-- Witness for C6: the demo corpus has every block extractable and
parses to exactly as many records as it has blocks (one). -/
theorem parser_completeness_witness :
    (∀ ls, Segment.block ls ∈ demoSegs → hasExtractable ls = true) ∧
    (parseCorpus (renderCorpus demoSegs)).length = demoSegs.countP isBlockSeg := by
  have h : ∀ ls, Segment.block ls ∈ demoSegs → hasExtractable ls = true := by
    intro ls hls
    simp only [demoSegs, List.mem_cons, List.mem_singleton] at hls
    rcases hls with h1 | h1 | h1
    · exact absurd h1 (by simp)
    · rw [(Segment.block.injEq _ _).mp h1]
      decide
    · simp at h1
  exact ⟨h, parser_completeness.1 demoSegs h⟩

end JsNotes
